import Mathlib

/-!
# Verification of the hermes adaptive hp-FEM core against its specification

Shallow embedding of the parts of the `hermes` repository relevant to the frozen
claims: the Newton iteration loops of `src/hermes1d/tests/adapt-exact-quadr-H1/main.cpp`,
the PETSc matrix/solver interface of
`src/hermes_common/src/solvers/interfaces/petsc_solver.cpp`, the initial condition of
`src/hermes2d/tutorial/P03-timedep/05-newton-heat-rk/initial_condition.cpp`, and a model
of the hermes1d `Space` component (whose implementation is not part of the corpus)
built from the specification's own wording.

Doubles are embedded as exact rationals (`ℚ`); the claims settled here concern control
flow, counting and exact algebraic identities, none of which depend on rounding.
-/

set_option maxHeartbeats 1000000

namespace Hermes

/-!
## Newton iteration loops, embedded from `main.cpp`

`main.cpp` contains three textually identical Newton `while (1)` loops (coarse at
lines 132-171, reference at 211-250, coarse-after-adapt at 280-320), differing only in
the tolerance used.  The loop body is embedded once as `newtonStepFn`; the assembler
and the linear solver are external collaborators and enter as an oracle.
-/

/-- The squared l2 norm of the residual vector, as computed in `main.cpp`:
`res_norm_squared += rhs->get(i)*rhs->get(i)`. -/
def sumSq (v : List ℚ) : ℚ := (v.map fun x => x * x).sum

/-- Configuration of one Newton run in `main.cpp`: the tolerance (`NEWTON_TOL_COARSE`
or `NEWTON_TOL_REF`) and the iteration ceiling `NEWTON_MAX_ITER`. -/
structure NewtonConfig where
  tol : ℚ
  maxIter : ℕ
deriving DecidableEq

/-- The external collaborators of the Newton loop in `main.cpp`: `dp->assemble`
produces the residual vector from the coefficients currently stored in the Space's
Elements, and `solver->solve` takes those coefficients (through the assembled
Jacobian) together with the negated residual and either returns the correction
(`solver->get_solution()`) or reports failure (`solve()` returning `false`). -/
structure NewtonOracle where
  assemble : List ℚ → List ℚ
  solve : List ℚ → List ℚ → Option (List ℚ)

/-- The state of one Newton run in `main.cpp`: the iteration counter `it`
(initialised to 1), the coefficient vector `coeff_vec`, and the coefficients
currently stored in the Space's Elements (the target of `vector_to_solution`).
The ghost field `updates` counts completed full iterations
(assemble, linear solve, update); it is not a program variable and always equals
`it - 1` on reachable states. -/
structure NewtonState where
  it : ℕ
  updates : ℕ
  coeffs : List ℚ
  space : List ℚ
deriving DecidableEq

/-- Outcome of a Newton run: the `break` on convergence (recording the squared
residual norm that was tested), `error("Matrix solver failed.")`,
`error("Newton method did not converge.")`, or exhaustion of the fuel bounding the
embedded `while (1)` loop. -/
inductive NewtonOutcome where
  | converged (final : NewtonState) (resNormSq : ℚ)
  | solverFailed (final : NewtonState)
  | diverged (final : NewtonState)
  | outOfFuel (final : NewtonState)
deriving DecidableEq

/-- Result of one pass through the loop body: continue iterating or leave the loop. -/
inductive NewtonStep where
  | cont (s : NewtonState)
  | done (o : NewtonOutcome)
deriving DecidableEq

/-- One pass through the `while (1)` body of the Newton loops in `main.cpp`:
assemble the residual from the Space's current coefficients; `break` with convergence
if `res_norm_squared < TOL*TOL && it > 1`; otherwise negate the residual, solve the
linear system (fatal `error` if the solver reports failure), add the correction to
`coeff_vec`, fail fatally if `it >= NEWTON_MAX_ITER`, copy `coeff_vec` into the
Space's Elements (`vector_to_solution`) and increment `it`. -/
def newtonStepFn (cfg : NewtonConfig) (ora : NewtonOracle) (s : NewtonState) : NewtonStep :=
  if sumSq (ora.assemble s.space) < cfg.tol * cfg.tol ∧ 1 < s.it then
    .done (.converged s (sumSq (ora.assemble s.space)))
  else
    match ora.solve s.space ((ora.assemble s.space).map fun x => -x) with
    | none => .done (.solverFailed s)
    | some delta =>
      if cfg.maxIter ≤ s.it then
        .done (.diverged { s with coeffs := List.zipWith (· + ·) s.coeffs delta })
      else
        .cont { it := s.it + 1, updates := s.updates + 1,
                coeffs := List.zipWith (· + ·) s.coeffs delta,
                space := List.zipWith (· + ·) s.coeffs delta }

/-- The Newton `while (1)` loop of `main.cpp`, bounded by fuel. -/
def newtonRun (cfg : NewtonConfig) (ora : NewtonOracle) : ℕ → NewtonState → NewtonOutcome
  | 0, s => .outOfFuel s
  | fuel + 1, s =>
    match newtonStepFn cfg ora s with
    | .done o => o
    | .cont s' => newtonRun cfg ora fuel s'

/-- The initial Newton state in `main.cpp`: `int it = 1;` and `coeff_vec` seeded from
the Space's Elements by `solution_to_vector`, so the coefficient vector and the Space
agree. -/
def newtonInit (spaceCoeffs : List ℚ) : NewtonState :=
  { it := 1, updates := 0, coeffs := spaceCoeffs, space := spaceCoeffs }

/-- A Newton oracle whose residual is identically zero and whose solver returns a zero
correction; it drives the embedded loop to convergence at iteration 2. -/
def newtonOracleW : NewtonOracle :=
  { assemble := fun _ => [0], solve := fun _ _ => some [0] }

/-- A Newton oracle with a large constant residual, driving the embedded loop into the
divergence error as soon as `it >= NEWTON_MAX_ITER`. -/
def newtonOracleDiv : NewtonOracle :=
  { assemble := fun _ => [2], solve := fun _ _ => some [1] }

/-!
## PETSc interface, embedded from `petsc_solver.cpp`
-/

/-- What one call of a linear-solve step can report back to the Newton loop: a
successful correction vector, or failure of the linear solve. -/
inductive SolveSignal where
  | ok (sln : List ℚ)
  | failure
deriving DecidableEq

/-- The outcome of the external PETSc call `KSPSolve` inside
`PetscLinearMatrixSolver::solve`: the error code it returns (`ec`; nonzero reports
non-convergence or a singular system) and the content of the PETSc solution vector
`x` after the call. -/
structure KSPOutcome where
  ec : ℤ
  x : List ℚ
deriving DecidableEq

/-- Embedding of `PetscLinearMatrixSolver<Scalar>::solve` (petsc_solver.cpp, lines
466-505): the KSP object is created, `ec = KSPSolve(ksp, rhs->vec, x)` is recorded,
but the failure check is commented out in the source (`//FIXME if (ec) return false;`)
and the function's return type is `void`, so the solution vector `x` is copied into
`sln` unconditionally and the caller is handed a successful result whatever `ec`
was. -/
def petscLinearSolve (kspSolve : List ℚ → KSPOutcome) (rhs : List ℚ) : SolveSignal :=
  SolveSignal.ok (kspSolve rhs).x

/-- One PETSc `MatSetValue(matrix, m, n, v, ADD_VALUES)` call on the sparse entry
store: if entry `(m, n)` is present the value is accumulated into it, otherwise the
entry is inserted. -/
def matSetValueAdd : List ((ℕ × ℕ) × ℚ) → ℕ → ℕ → ℚ → List ((ℕ × ℕ) × ℚ)
  | [], m, n, v => [((m, n), v)]
  | e :: rest, m, n, v =>
    if e.1 = (m, n) then (e.1, e.2 + v) :: rest else e :: matSetValueAdd rest m n v

/-- Embedding of `PetscMatrix<Scalar>::add` (petsc_solver.cpp, lines 210-218):
`if (v != 0.0) { MatSetValue(matrix, m, n, v, ADD_VALUES); }` — a zero value is
skipped entirely ("ignore zero values") and the matrix object is left untouched. -/
def petscMatrixAdd (es : List ((ℕ × ℕ) × ℚ)) (m n : ℕ) (v : ℚ) : List ((ℕ × ℕ) × ℚ) :=
  if v ≠ 0 then matSetValueAdd es m n v else es

/-- The value stored at entry `(m, n)` of the sparse entry store; absent entries read
as 0. -/
def matEntry : List ((ℕ × ℕ) × ℚ) → ℕ → ℕ → ℚ
  | [], _, _ => 0
  | e :: rest, m, n => if e.1 = (m, n) then e.2 else matEntry rest m n

/-!
## Initial condition, embedded from `initial_condition.cpp`
-/

/-- `InitialSolutionHeatTransfer::value` from initial_condition.cpp:
`return (x+10)*(y+10)/100.;` (stated over any field, used over `ℝ` in the theorems
and evaluable over `ℚ`). -/
def heatICValue {K : Type*} [Field K] (x y : K) : K := (x + 10) * (y + 10) / 100

/-- `InitialSolutionHeatTransfer::derivatives` from initial_condition.cpp: the pair
`(dx, dy)` it writes, `dx = (y+10)/10.; dy = (x+10)/10.;`. -/
def heatICDerivatives {K : Type*} [Field K] (x y : K) : K × K :=
  ((y + 10) / 10, (x + 10) / 10)

/-!
## hermes1d Space component, modelled from the specification

The hermes1d implementations of `Space::assign_dofs`, `construct_refined_space`,
`solution_to_vector`, `vector_to_solution` and `calc_err_est` are called by
`main.cpp` but their sources are not part of the corpus.  The definitions in this
section are modelled from the specification's wording (§3, §4.1, §4.4), as noted in
each doc comment.
-/

/-- Modelled from the spec (§6): the boundary-condition kind at one domain endpoint
for one equation component, "kind (Dirichlet with fixed value, or natural/Neumann)";
the hermes1d boundary handling itself is not under src/. -/
inductive BCKind where
  | dirichlet (val : ℚ)
  | neumann
deriving DecidableEq

/-- Whether a boundary condition Dirichlet-constrains the adjacent coefficient. -/
def BCKind.isDirichlet : BCKind → Bool
  | .dirichlet _ => true
  | .neumann => false

/-- Modelled from the spec (§3): an Element is "a sub-interval with a polynomial
degree and local degree-of-freedom coefficients", carrying "interval endpoints ...,
polynomial degree p ≥ 1, local coefficient vector of length p+1 (one per equation
component), active/inactive flag".  `coeffs` stores the `NEQ` per-equation blocks of
`p+1` local coefficients flattened in equation order; `dof` holds the global index
assigned to each local coefficient by `assign_dofs`, with `-1` marking a
Dirichlet-constrained coefficient (excluded from the free unknowns but "retained as
fixed values"). -/
structure Element where
  x1 : ℚ
  x2 : ℚ
  p : ℕ
  active : Bool
  coeffs : List ℚ
  dof : List ℤ
deriving DecidableEq

/-- Modelled from the spec (§3): a Space "owns an ordered sequence of Elements (by
position, left to right), the number of equations NEQ, boundary-condition kind
(Dirichlet/Neumann) and value at each domain endpoint per equation".  `bcs` has one
(left endpoint, right endpoint) pair per equation, so `NEQ = bcs.length`. -/
structure Space where
  bcs : List (BCKind × BCKind)
  elems : List Element
deriving DecidableEq

/-- Modelled from the spec (§4.1): for one equation of an element of degree `p ≥ 1`,
which of its `p+1` local coefficients are Dirichlet-constrained — the left-endpoint
coefficient (position 0) when this is the first active element and the equation's
left condition is Dirichlet, and the right-endpoint coefficient (position `p`) when
this is the last active element and the right condition is Dirichlet ("skips/fixes
coefficients constrained by a Dirichlet boundary condition at a domain endpoint"). -/
def eqMask (bc : BCKind × BCKind) (isFirst isLast : Bool) (p : ℕ) : List Bool :=
  (isFirst && bc.1.isDirichlet) ::
    (List.replicate (p - 1) false ++ [isLast && bc.2.isDirichlet])

/-- The constrained-coefficient mask of a whole element: one `eqMask` block per
equation, flattened in equation order (matching `Element.coeffs`). -/
def elemMask (bcs : List (BCKind × BCKind)) (isFirst isLast : Bool) (p : ℕ) : List Bool :=
  (bcs.map fun bc => eqMask bc isFirst isLast p).flatten

/-- Modelled from the spec (§4.1): number the local coefficients of one element,
giving "each free local coefficient a unique increasing global index" starting at
`k`, and `-1` to each Dirichlet-constrained one; returns the dof list and the next
free index. -/
def numberMask (k : ℕ) : List Bool → List ℤ × ℕ
  | [] => ([], k)
  | b :: rest =>
    if b then
      ((-1 : ℤ) :: (numberMask k rest).1, (numberMask k rest).2)
    else
      ((k : ℤ) :: (numberMask (k + 1) rest).1, (numberMask (k + 1) rest).2)

/-- Modelled from the spec (§4.1): the walk of `assign_dofs` over the element
sequence, "active Elements left to right in domain order".  `fp` records that no
active element has been seen yet (so the next active one is the first); an active
element is the last active one when no active element follows it.  Inactive elements
are skipped, keeping their `dof` content. -/
def assignGo (bcs : List (BCKind × BCKind)) : Bool → ℕ → List Element → List Element × ℕ
  | _, k, [] => ([], k)
  | fp, k, e :: rest =>
    if e.active then
      ({ e with dof := (numberMask k (elemMask bcs fp (!rest.any fun x => x.active) e.p)).1 } ::
          (assignGo bcs false
            (numberMask k (elemMask bcs fp (!rest.any fun x => x.active) e.p)).2 rest).1,
        (assignGo bcs false
          (numberMask k (elemMask bcs fp (!rest.any fun x => x.active) e.p)).2 rest).2)
    else
      (e :: (assignGo bcs fp k rest).1, (assignGo bcs fp k rest).2)

/-- Modelled from the spec (§4.1): `Space::assign_dofs()` walks the active elements
left to right, assigns each free local coefficient a unique increasing global index
starting from 0, skips/fixes the Dirichlet-constrained ones, and "returns total free
dof count". -/
def assign_dofs (s : Space) : Space × ℕ :=
  ({ s with elems := (assignGo s.bcs true 0 s.elems).1 }, (assignGo s.bcs true 0 s.elems).2)

/-- `Space::get_num_dofs` (§4.1 read-only accessor): the dof count that
`assign_dofs` produces. -/
def get_num_dofs (s : Space) : ℕ := (assign_dofs s).2

/-- The number of free (unconstrained) local coefficients that the `assign_dofs` walk
meets in an element list, given the first-active flag `fp`; this is the amount by
which the walk advances its index counter. -/
def freeSlots (bcs : List (BCKind × BCKind)) : Bool → List Element → ℕ
  | _, [] => 0
  | fp, e :: rest =>
    if e.active then
      (elemMask bcs fp (!rest.any fun x => x.active) e.p).countP (fun b => !b) +
        freeSlots bcs false rest
    else freeSlots bcs fp rest

/-- The "total local coefficients across active Elements" of claim C6: each active
element contributes `NEQ * (p+1)` local coefficients. -/
def totalLocalCoeffs (s : Space) : ℕ :=
  ((s.elems.filter fun e => e.active).map fun e => s.bcs.length * (e.p + 1)).sum

/-- The "number of Dirichlet-constrained coefficients" of claim C6: one per equation
with a Dirichlet left condition (constraining the first active element) and one per
equation with a Dirichlet right condition (constraining the last active element),
provided an active element exists at all. -/
def numDirichletConstrained (s : Space) : ℕ :=
  if s.elems.any fun e => e.active then
    (s.bcs.countP fun bc => bc.1.isDirichlet) + (s.bcs.countP fun bc => bc.2.isDirichlet)
  else 0

/-- A structurally valid Space: at least one equation, at least one active element
(the active elements partition the domain, §3), every active element of degree ≥ 1
(§3: "polynomial degree p ≥ 1") with one block of `p+1` local coefficients per
equation. -/
def SpaceValid (s : Space) : Prop :=
  1 ≤ s.bcs.length ∧ (s.elems.any fun e => e.active) = true ∧
    ∀ e ∈ s.elems, e.active = true →
      1 ≤ e.p ∧ e.coeffs.length = s.bcs.length * (e.p + 1)

/-- The "global reference-refinement policy" of spec §4.1: split each active element
(h), raise its degree by a fixed increment (p), or both (hp). -/
inductive RefPolicy where
  | hOnly
  | pOnly
  | hp
deriving DecidableEq

/-- Refine one active coarse element per the policy (spec §4.1): "either splitting it
into two half-width child Elements (h-refinement) or raising its degree by a fixed
increment (p-refinement) or both (hp)".  Children start active, with zero
coefficients and no dof assignment; the spec does not prescribe the coefficient
transfer at this point and no claim settled here depends on it. -/
def refineElement (pol : RefPolicy) (dinc : ℕ) (neq : ℕ) (e : Element) : List Element :=
  match pol with
  | .hOnly =>
    [⟨e.x1, (e.x1 + e.x2) / 2, e.p, true, List.replicate (neq * (e.p + 1)) 0, []⟩,
      ⟨(e.x1 + e.x2) / 2, e.x2, e.p, true, List.replicate (neq * (e.p + 1)) 0, []⟩]
  | .pOnly =>
    [⟨e.x1, e.x2, e.p + dinc, true, List.replicate (neq * (e.p + dinc + 1)) 0, []⟩]
  | .hp =>
    [⟨e.x1, (e.x1 + e.x2) / 2, e.p + dinc, true,
        List.replicate (neq * (e.p + dinc + 1)) 0, []⟩,
      ⟨(e.x1 + e.x2) / 2, e.x2, e.p + dinc, true,
        List.replicate (neq * (e.p + dinc + 1)) 0, []⟩]

/-- Modelled from the spec (§4.1): `construct_refined_space` "produces a new Space
whose Elements are obtained by, for every active coarse Element", applying the
reference-refinement policy with degree increment `dinc`.  The coarse Space is taken
by value and never written to, so it is left unmodified (automatic in this functional
embedding). -/
def construct_refined_space (pol : RefPolicy) (dinc : ℕ) (s : Space) : Space :=
  { bcs := s.bcs,
    elems :=
      (s.elems.filter fun e => e.active).flatMap (refineElement pol dinc s.bcs.length) }

/-- The per-element update performed by `vector_to_solution`: each free local
coefficient (dof index `≥ 0`) is overwritten with the vector entry at its global dof
index; Dirichlet-constrained coefficients (dof `-1`) keep their fixed values. -/
def updElem (v : List ℚ) (e : Element) : Element :=
  if e.active then
    { e with
      coeffs := List.zipWith
        (fun d c => if 0 ≤ d then v.getD d.toNat 0 else c) e.dof e.coeffs }
  else e

/-- Modelled from the spec (§3): `vector_to_solution` copies the flat coefficient
vector, "index-aligned with the global dof numbering", back into the active
Elements' local storage. -/
def vector_to_solution (v : List ℚ) (s : Space) : Space :=
  { s with elems := s.elems.map (updElem v) }

/-- Scatter a list of (dof index, coefficient) pairs into the flat vector: each pair
with dof index `≥ 0` writes its coefficient at that index. -/
def scatterPairs (vec : List ℚ) (pairs : List (ℤ × ℚ)) : List ℚ :=
  pairs.foldl (fun acc dc => if 0 ≤ dc.1 then acc.set dc.1.toNat dc.2 else acc) vec

/-- Scatter one active element's free local coefficients into the flat vector at
their assigned global dof indices. -/
def scatterElem (vec : List ℚ) (e : Element) : List ℚ :=
  scatterPairs vec (e.dof.zip e.coeffs)

/-- Modelled from the spec (§3): `solution_to_vector` extracts the flat coefficient
vector of length `get_num_dofs` from the active Elements' local storage, each free
local coefficient landing at its assigned global dof index. -/
def solution_to_vector (s : Space) : List ℚ :=
  (s.elems.filter fun e => e.active).foldl scatterElem (List.replicate (get_num_dofs s) 0)

/-- A Space whose dof indices are exactly the ones `assign_dofs` assigns — for
example any output of `assign_dofs` ("idempotent given identical Element structure",
§4.1). -/
def Assigned (s : Space) : Prop := (assign_dofs s).1 = s

/-!
## Error estimator, modelled from the specification (§4.4)
-/

/-- Modelled from the spec (§4.2, §4.4): the squared error of one coarse element,
"the difference between the coarse solution ... and the reference solution restricted
to the same sub-interval, integrated in the chosen norm (L2: ∫(u_coarse − u_ref)²;
H1: L2 of value plus L2 of derivative)", the integral being evaluated by the
element's Gauss rule `pts` (point/weight pairs, §4.2). -/
def elemErrSq (norm : ℕ) (uc duc ur dur : ℚ → ℚ) (pts : List (ℚ × ℚ)) : ℚ :=
  (pts.map fun xw =>
    xw.2 * ((uc xw.1 - ur xw.1) ^ 2 +
      if norm = 1 then (duc xw.1 - dur xw.1) ^ 2 else 0)).sum

/-- The squared norm of the reference solution over one element, same quadrature. -/
def elemRefNormSq (norm : ℕ) (ur dur : ℚ → ℚ) (pts : List (ℚ × ℚ)) : ℚ :=
  (pts.map fun xw =>
    xw.2 * (ur xw.1 ^ 2 + if norm = 1 then dur xw.1 ^ 2 else 0)).sum

/-- Modelled from the spec (§4.4): `calc_err_est` stores "each Element's absolute
error in out_error_array at the Element's index" and returns "the global relative
error = sqrt(Σ element errors²) / sqrt(Σ reference-solution norms²)".  The coarse and
reference solutions enter as the functions (with derivatives) that the two Spaces
hold; `elemPts` is the quadrature data of the active coarse elements in order. -/
noncomputable def calc_err_est (norm : ℕ) (uc duc ur dur : ℚ → ℚ)
    (elemPts : List (List (ℚ × ℚ))) : List ℝ × ℝ :=
  (elemPts.map fun pts => Real.sqrt (elemErrSq norm uc duc ur dur pts),
    Real.sqrt ((elemPts.map fun pts => ((elemErrSq norm uc duc ur dur pts : ℚ) : ℝ)).sum) /
      Real.sqrt ((elemPts.map fun pts => ((elemRefNormSq norm ur dur pts : ℚ) : ℝ)).sum))

/-- The coarse space of the worked test in `main.cpp`: domain [-1, 1], two active
elements of degree `P_init = 1`, one equation with homogeneous Dirichlet conditions
at both endpoints; dofs not yet assigned. -/
def exSpace : Space :=
  { bcs := [(.dirichlet 0, .dirichlet 0)],
    elems := [⟨-1, 0, 1, true, [0, 0], []⟩, ⟨0, 1, 1, true, [0, 0], []⟩] }

/-- `exSpace` after `assign_dofs`: the left element's endpoint coefficient and the
right element's endpoint coefficient are Dirichlet-constrained (dof -1), the two
remaining free coefficients receive global indices 0 and 1. -/
def exSpaceA : Space :=
  { bcs := [(.dirichlet 0, .dirichlet 0)],
    elems := [⟨-1, 0, 1, true, [0, 0], [-1, 0]⟩, ⟨0, 1, 1, true, [0, 0], [1, -1]⟩] }

/-!
## Lemmas about the Newton loop
-/

theorem newtonStepFn_cont (cfg : NewtonConfig) (ora : NewtonOracle) (s s' : NewtonState)
    (h : newtonStepFn cfg ora s = .cont s') :
    s'.it = s.it + 1 ∧ s'.updates = s.updates + 1 := by
  unfold newtonStepFn at h
  rcases hm : ora.solve s.space ((ora.assemble s.space).map fun x => -x) with _ | delta <;>
      rw [hm] at h <;> dsimp only at h <;> split_ifs at h <;>
    simp only [NewtonStep.cont.injEq] at h
  subst h
  exact ⟨rfl, rfl⟩

theorem newtonStepFn_converged (cfg : NewtonConfig) (ora : NewtonOracle)
    (s sf : NewtonState) (rnsq : ℚ)
    (h : newtonStepFn cfg ora s = .done (.converged sf rnsq)) :
    sf = s ∧ rnsq = sumSq (ora.assemble s.space) ∧
      rnsq < cfg.tol * cfg.tol ∧ 1 < s.it := by
  unfold newtonStepFn at h
  rcases hm : ora.solve s.space ((ora.assemble s.space).map fun x => -x) with _ | delta <;>
      rw [hm] at h <;> dsimp only at h <;> split_ifs at h with h1 h2
  all_goals try (injection h with h; exact NewtonOutcome.noConfusion h)
  all_goals
    injection h with h
    injection h with ha hb
    subst ha
    subst hb
    exact ⟨rfl, rfl, h1.1, h1.2⟩

theorem newtonStepFn_diverged (cfg : NewtonConfig) (ora : NewtonOracle)
    (s sf : NewtonState)
    (h : newtonStepFn cfg ora s = .done (.diverged sf)) :
    ∃ delta, ora.solve s.space ((ora.assemble s.space).map fun x => -x) = some delta ∧
      sf.coeffs = List.zipWith (· + ·) s.coeffs delta ∧
      sf.space = s.space ∧ sf.it = s.it ∧ sf.updates = s.updates ∧
      cfg.maxIter ≤ s.it := by
  unfold newtonStepFn at h
  rcases hm : ora.solve s.space ((ora.assemble s.space).map fun x => -x) with _ | delta <;>
      rw [hm] at h <;> dsimp only at h <;> split_ifs at h with h1 h2
  all_goals try (injection h with h; exact NewtonOutcome.noConfusion h)
  injection h with h
  injection h with h
  subst h
  exact ⟨delta, rfl, rfl, rfl, rfl, rfl, h2⟩

theorem newtonRun_converged_inv (cfg : NewtonConfig) (ora : NewtonOracle)
    (fuel : ℕ) (s sf : NewtonState) (rnsq : ℚ)
    (hinv : s.updates + 1 = s.it)
    (h : newtonRun cfg ora fuel s = .converged sf rnsq) :
    rnsq < cfg.tol * cfg.tol ∧ 1 ≤ sf.updates ∧ 2 ≤ sf.it ∧
      sf.updates + 1 = sf.it ∧ rnsq = sumSq (ora.assemble sf.space) := by
  induction fuel generalizing s with
  | zero => simp [newtonRun] at h
  | succ fuel ih =>
    unfold newtonRun at h
    rcases hs : newtonStepFn cfg ora s with s' | o
    · rw [hs] at h
      obtain ⟨hit, hup⟩ := newtonStepFn_cont cfg ora s s' hs
      exact ih s' (by omega) h
    · rw [hs] at h
      simp only at h
      subst h
      obtain ⟨hsf, hrn, hlt, hit⟩ := newtonStepFn_converged cfg ora s sf rnsq hs
      subst hsf
      exact ⟨hlt, by omega, by omega, hinv, hrn⟩

theorem newtonRun_diverged_origin (cfg : NewtonConfig) (ora : NewtonOracle)
    (fuel : ℕ) (s0 sf : NewtonState)
    (h : newtonRun cfg ora fuel s0 = .diverged sf) :
    ∃ s, newtonStepFn cfg ora s = .done (.diverged sf) := by
  induction fuel generalizing s0 with
  | zero => simp [newtonRun] at h
  | succ fuel ih =>
    unfold newtonRun at h
    rcases hs : newtonStepFn cfg ora s0 with s' | o
    · rw [hs] at h
      exact ih s' h
    · rw [hs] at h
      simp only at h
      subst h
      exact ⟨s0, hs⟩

/-!
## Lemmas about the Space model: dof counting
-/

theorem numberMask_nil (k : ℕ) : numberMask k [] = ([], k) := rfl

theorem numberMask_true (k : ℕ) (rest : List Bool) :
    numberMask k (true :: rest) =
      ((-1 : ℤ) :: (numberMask k rest).1, (numberMask k rest).2) := by
  simp [numberMask]

theorem numberMask_false (k : ℕ) (rest : List Bool) :
    numberMask k (false :: rest) =
      ((k : ℤ) :: (numberMask (k + 1) rest).1, (numberMask (k + 1) rest).2) := by
  simp [numberMask]

theorem numberMask_fst_length (k : ℕ) (mask : List Bool) :
    (numberMask k mask).1.length = mask.length := by
  induction mask generalizing k with
  | nil => rfl
  | cons b rest ih => cases b <;> simp [numberMask, ih]

theorem numberMask_snd (k : ℕ) (mask : List Bool) :
    (numberMask k mask).2 = k + mask.countP (fun b => !b) := by
  induction mask generalizing k with
  | nil => simp [numberMask]
  | cons b rest ih =>
    cases b <;> simp [numberMask, ih, List.countP_cons] <;> omega

theorem countP_not_add (mask : List Bool) :
    mask.countP (fun b => !b) + mask.countP (fun b => b) = mask.length := by
  induction mask with
  | nil => rfl
  | cons b rest ih => cases b <;> simp [List.countP_cons] <;> omega

theorem eqMask_length (bc : BCKind × BCKind) (f l : Bool) (p : ℕ) (hp : 1 ≤ p) :
    (eqMask bc f l p).length = p + 1 := by
  simp [eqMask]
  omega


theorem eqMask_countP_true (bc : BCKind × BCKind) (f l : Bool) (p : ℕ) :
    (eqMask bc f l p).countP (fun b => b) =
      cond (f && bc.1.isDirichlet) 1 0 + cond (l && bc.2.isDirichlet) 1 0 := by
  cases hb1 : f && bc.1.isDirichlet <;> cases hb2 : l && bc.2.isDirichlet <;>
    simp [eqMask, List.countP_cons, List.countP_append, List.countP_replicate, hb1, hb2]

theorem elemMask_cons (bc : BCKind × BCKind) (bcs : List (BCKind × BCKind))
    (f l : Bool) (p : ℕ) :
    elemMask (bc :: bcs) f l p = eqMask bc f l p ++ elemMask bcs f l p := by
  simp [elemMask]

theorem elemMask_length (bcs : List (BCKind × BCKind)) (f l : Bool) (p : ℕ)
    (hp : 1 ≤ p) :
    (elemMask bcs f l p).length = bcs.length * (p + 1) := by
  induction bcs with
  | nil => simp [elemMask]
  | cons bc rest ih =>
    rw [elemMask_cons, List.length_append, ih, eqMask_length bc f l p hp,
      List.length_cons]
    ring

theorem elemMask_countP_true (bcs : List (BCKind × BCKind)) (f l : Bool) (p : ℕ) :
    (elemMask bcs f l p).countP (fun b => b) =
      cond f (bcs.countP fun bc => bc.1.isDirichlet) 0 +
        cond l (bcs.countP fun bc => bc.2.isDirichlet) 0 := by
  induction bcs with
  | nil => cases f <;> cases l <;> simp [elemMask]
  | cons bc rest ih =>
    rw [elemMask_cons, List.countP_append, ih, eqMask_countP_true,
      List.countP_cons, List.countP_cons]
    cases f <;> cases l <;> cases hb1 : bc.1.isDirichlet <;>
      cases hb2 : bc.2.isDirichlet <;> simp [hb1, hb2] <;> omega

theorem elemMask_countP_free (bcs : List (BCKind × BCKind)) (f l : Bool) (p : ℕ)
    (hp : 1 ≤ p) :
    (elemMask bcs f l p).countP (fun b => !b) +
        (cond f (bcs.countP fun bc => bc.1.isDirichlet) 0 +
          cond l (bcs.countP fun bc => bc.2.isDirichlet) 0) =
      bcs.length * (p + 1) := by
  have h1 := countP_not_add (elemMask bcs f l p)
  have h2 := elemMask_countP_true bcs f l p
  have h3 := elemMask_length bcs f l p hp
  omega

theorem assignGo_nil (bcs : List (BCKind × BCKind)) (fp : Bool) (k : ℕ) :
    assignGo bcs fp k [] = ([], k) := rfl

theorem assignGo_cons_active (bcs : List (BCKind × BCKind)) (fp : Bool) (k : ℕ)
    (e : Element) (rest : List Element) (ha : e.active = true) :
    assignGo bcs fp k (e :: rest) =
      ({ e with dof :=
            (numberMask k (elemMask bcs fp (!rest.any fun x => x.active) e.p)).1 } ::
          (assignGo bcs false
            (numberMask k (elemMask bcs fp (!rest.any fun x => x.active) e.p)).2 rest).1,
        (assignGo bcs false
          (numberMask k (elemMask bcs fp (!rest.any fun x => x.active) e.p)).2 rest).2) := by
  simp [assignGo, ha]

theorem assignGo_cons_inactive (bcs : List (BCKind × BCKind)) (fp : Bool) (k : ℕ)
    (e : Element) (rest : List Element) (ha : e.active = false) :
    assignGo bcs fp k (e :: rest) =
      (e :: (assignGo bcs fp k rest).1, (assignGo bcs fp k rest).2) := by
  simp [assignGo, ha]

theorem freeSlots_cons_active (bcs : List (BCKind × BCKind)) (fp : Bool)
    (e : Element) (rest : List Element) (ha : e.active = true) :
    freeSlots bcs fp (e :: rest) =
      (elemMask bcs fp (!rest.any fun x => x.active) e.p).countP (fun b => !b) +
        freeSlots bcs false rest := by
  simp [freeSlots, ha]

theorem freeSlots_cons_inactive (bcs : List (BCKind × BCKind)) (fp : Bool)
    (e : Element) (rest : List Element) (ha : e.active = false) :
    freeSlots bcs fp (e :: rest) = freeSlots bcs fp rest := by
  simp [freeSlots, ha]

theorem assignGo_snd (bcs : List (BCKind × BCKind)) (fp : Bool) (k : ℕ)
    (es : List Element) :
    (assignGo bcs fp k es).2 = k + freeSlots bcs fp es := by
  induction es generalizing fp k with
  | nil => simp [assignGo, freeSlots]
  | cons e rest ih =>
    cases ha : e.active
    · rw [assignGo_cons_inactive bcs fp k e rest ha]
      simp [freeSlots_cons_inactive bcs fp e rest ha, ih]
    · rw [assignGo_cons_active bcs fp k e rest ha]
      simp [freeSlots_cons_active bcs fp e rest ha, ih, numberMask_snd]
      omega

theorem freeSlots_add (bcs : List (BCKind × BCKind)) (fp : Bool) (es : List Element)
    (hp : ∀ e ∈ es, e.active = true → 1 ≤ e.p) :
    freeSlots bcs fp es +
        (cond (fp && es.any fun e => e.active)
            (bcs.countP fun bc => bc.1.isDirichlet) 0 +
          cond (es.any fun e => e.active)
            (bcs.countP fun bc => bc.2.isDirichlet) 0) =
      ((es.filter fun e => e.active).map fun e => bcs.length * (e.p + 1)).sum := by
  induction es generalizing fp with
  | nil => simp [freeSlots]
  | cons e rest ih =>
    cases ha : e.active
    · have h := ih fp fun e' he' => hp e' (List.mem_cons_of_mem _ he')
      simpa [freeSlots_cons_inactive bcs fp e rest ha, ha] using h
    · have hpe : 1 ≤ e.p := hp e (List.mem_cons_self _ _) ha
      have h := ih false fun e' he' => hp e' (List.mem_cons_of_mem _ he')
      have hfree := elemMask_countP_free bcs fp (!rest.any fun x => x.active) e.p hpe
      rw [freeSlots_cons_active bcs fp e rest ha,
        List.filter_cons_of_pos (by simp [ha]), List.map_cons, List.sum_cons]
      simp only [List.any_cons, ha, Bool.true_or, Bool.and_true, Bool.false_and,
        Bool.cond_false, Bool.cond_true] at h ⊢
      cases har : rest.any fun x => x.active <;>
        simp only [har, Bool.not_true, Bool.not_false, Bool.cond_false, Bool.cond_true,
          Nat.add_zero, Nat.zero_add] at h hfree ⊢ <;>
      omega

theorem num_dofs_add (s : Space)
    (hp : ∀ e ∈ s.elems, e.active = true → 1 ≤ e.p) :
    (assign_dofs s).2 + numDirichletConstrained s = totalLocalCoeffs s := by
  have h1 := assignGo_snd s.bcs true 0 s.elems
  have h2 := freeSlots_add s.bcs true s.elems hp
  unfold assign_dofs numDirichletConstrained totalLocalCoeffs
  cases hae : s.elems.any fun e => e.active <;> simp [hae] at h2 ⊢ <;> omega

/-!
## Lemmas about the Space model: idempotence of assign_dofs
-/

theorem assignGo_fst_active_p (bcs : List (BCKind × BCKind)) (fp : Bool) (k : ℕ)
    (es : List Element) :
    ((assignGo bcs fp k es).1).map (fun e => (e.active, e.p)) =
      es.map fun e => (e.active, e.p) := by
  induction es generalizing fp k with
  | nil => simp [assignGo]
  | cons e rest ih =>
    cases ha : e.active
    · rw [assignGo_cons_inactive bcs fp k e rest ha]
      simp [ih]
    · rw [assignGo_cons_active bcs fp k e rest ha]
      simp [ih]

theorem assignGo_any_active (bcs : List (BCKind × BCKind)) (fp : Bool) (k : ℕ)
    (es : List Element) :
    ((assignGo bcs fp k es).1).any (fun x => x.active) = es.any fun x => x.active := by
  induction es generalizing fp k with
  | nil => simp [assignGo]
  | cons e rest ih =>
    cases ha : e.active
    · rw [assignGo_cons_inactive bcs fp k e rest ha]
      simp [ha, ih]
    · rw [assignGo_cons_active bcs fp k e rest ha]
      simp [ha, ih]

theorem assignGo_idem (bcs : List (BCKind × BCKind)) (fp : Bool) (k : ℕ)
    (es : List Element) :
    assignGo bcs fp k ((assignGo bcs fp k es).1) = assignGo bcs fp k es := by
  induction es generalizing fp k with
  | nil => simp [assignGo]
  | cons e rest ih =>
    cases ha : e.active
    · rw [assignGo_cons_inactive bcs fp k e rest ha]
      rw [assignGo_cons_inactive bcs fp k e _ ha]
      rw [ih]
    · rw [assignGo_cons_active bcs fp k e rest ha]
      rw [assignGo_cons_active bcs fp k _ _
        (show ({ e with dof :=
          (numberMask k (elemMask bcs fp (!rest.any fun x => x.active) e.p)).1 } :
            Element).active = true from ha)]
      simp only [assignGo_any_active, ih]

theorem assign_dofs_idem (s : Space) : assign_dofs (assign_dofs s).1 = assign_dofs s := by
  unfold assign_dofs
  simp [assignGo_idem]

/-!
## Lemmas about the Space model: construct_refined_space
-/

theorem list_sum_le_sum (l : List Element) (f g : Element → ℕ)
    (h : ∀ a ∈ l, f a ≤ g a) : (l.map f).sum ≤ (l.map g).sum := by
  induction l with
  | nil => simp
  | cons a rest ih =>
    simp only [List.map_cons, List.sum_cons]
    have h1 := h a (List.mem_cons_self _ _)
    have h2 := ih fun a ha => h a (List.mem_cons_of_mem _ ha)
    omega

theorem sum_flatMap_lt (A : List Element) (f g : Element → ℕ)
    (r : Element → List Element) (hne : A ≠ [])
    (h : ∀ a ∈ A, f a < ((r a).map g).sum) :
    (A.map f).sum < ((A.flatMap r).map g).sum := by
  induction A with
  | nil => exact absurd rfl hne
  | cons a rest ih =>
    simp only [List.map_cons, List.sum_cons, List.flatMap_cons, List.map_append,
      List.sum_append]
    have h1 := h a (List.mem_cons_self _ _)
    rcases eq_or_ne rest [] with rfl | hne2
    · simp only [List.flatMap_nil, List.map_nil, List.sum_nil, List.map_cons]
      omega
    · have h2 := ih hne2 fun a ha => h a (List.mem_cons_of_mem _ ha)
      omega

theorem refineElement_mem (pol : RefPolicy) (dinc neq : ℕ) (e e' : Element)
    (h : e' ∈ refineElement pol dinc neq e) :
    e'.active = true ∧ e.p ≤ e'.p := by
  cases pol with
  | hOnly =>
    simp only [refineElement, List.mem_cons, List.mem_singleton] at h
    rcases h with rfl | h
    · exact ⟨rfl, Nat.le_refl _⟩
    · rcases h with rfl | h
      · exact ⟨rfl, Nat.le_refl _⟩
      · simp at h
  | pOnly =>
    simp only [refineElement, List.mem_singleton] at h
    subst h
    exact ⟨rfl, Nat.le_add_right _ _⟩
  | hp =>
    simp only [refineElement, List.mem_cons, List.mem_singleton] at h
    rcases h with rfl | h
    · exact ⟨rfl, Nat.le_add_right _ _⟩
    · rcases h with rfl | h
      · exact ⟨rfl, Nat.le_add_right _ _⟩
      · simp at h

theorem refineElement_ne_nil (pol : RefPolicy) (dinc neq : ℕ) (e : Element) :
    refineElement pol dinc neq e ≠ [] := by
  cases pol <;> simp [refineElement]

theorem refineElement_sum (pol : RefPolicy) (dinc L : ℕ) (e : Element)
    (hL : 1 ≤ L) (hd : 1 ≤ dinc) :
    L * (e.p + 1) < ((refineElement pol dinc L e).map fun e' => L * (e'.p + 1)).sum := by
  have h1 : 0 < L * (e.p + 1) := Nat.mul_pos hL (Nat.succ_pos _)
  have hms : L * (e.p + 1 + 1) = L * (e.p + 1) + L := Nat.mul_succ L (e.p + 1)
  have h2 : L * (e.p + 1 + 1) ≤ L * (e.p + dinc + 1) :=
    Nat.mul_le_mul_left _ (by omega)
  cases pol <;> simp [refineElement] <;> omega

theorem construct_refined_space_active (pol : RefPolicy) (dinc : ℕ) (s : Space) :
    ∀ e ∈ (construct_refined_space pol dinc s).elems, e.active = true := by
  intro e he
  unfold construct_refined_space at he
  simp only [List.mem_flatMap] at he
  obtain ⟨a, _, hmem⟩ := he
  exact (refineElement_mem pol dinc s.bcs.length a e hmem).1

theorem construct_refined_space_p (pol : RefPolicy) (dinc : ℕ) (s : Space)
    (hp : ∀ e ∈ s.elems, e.active = true → 1 ≤ e.p) :
    ∀ e ∈ (construct_refined_space pol dinc s).elems, e.active = true → 1 ≤ e.p := by
  intro e he _
  unfold construct_refined_space at he
  simp only [List.mem_flatMap, List.mem_filter] at he
  obtain ⟨a, ⟨hamem, haact⟩, hmem⟩ := he
  have hle := (refineElement_mem pol dinc s.bcs.length a e hmem).2
  have hap := hp a hamem (by simpa using haact)
  omega

theorem construct_refined_space_any (pol : RefPolicy) (dinc : ℕ) (s : Space)
    (hact : (s.elems.any fun e => e.active) = true) :
    ((construct_refined_space pol dinc s).elems.any fun e => e.active) = true := by
  rw [List.any_eq_true] at hact ⊢
  obtain ⟨a, ha, haa⟩ := hact
  obtain ⟨e', he'⟩ :=
    List.exists_mem_of_ne_nil _ (refineElement_ne_nil pol dinc s.bcs.length a)
  refine ⟨e', ?_, (refineElement_mem pol dinc s.bcs.length a e' he').1⟩
  unfold construct_refined_space
  simp only [List.mem_flatMap, List.mem_filter]
  exact ⟨a, ⟨ha, haa⟩, he'⟩

theorem construct_refined_total (pol : RefPolicy) (dinc : ℕ) (s : Space)
    (hL : 1 ≤ s.bcs.length) (hd : 1 ≤ dinc)
    (hact : (s.elems.any fun e => e.active) = true) :
    totalLocalCoeffs s < totalLocalCoeffs (construct_refined_space pol dinc s) := by
  have hfilter : List.filter (fun e => e.active)
        ((s.elems.filter fun e => e.active).flatMap
          (refineElement pol dinc s.bcs.length)) =
      (s.elems.filter fun e => e.active).flatMap
        (refineElement pol dinc s.bcs.length) :=
    List.filter_eq_self.mpr fun e he => by
      simp only [List.mem_flatMap] at he
      obtain ⟨a, _, hmem⟩ := he
      simp [(refineElement_mem pol dinc s.bcs.length a e hmem).1]
  have hne : s.elems.filter (fun e => e.active) ≠ [] := by
    rw [List.any_eq_true] at hact
    obtain ⟨a, ha, haa⟩ := hact
    exact List.ne_nil_of_mem (List.mem_filter.mpr ⟨ha, haa⟩)
  unfold totalLocalCoeffs construct_refined_space
  dsimp only
  rw [hfilter]
  exact sum_flatMap_lt _ _ _ _ hne
    fun a _ => refineElement_sum pol dinc s.bcs.length a hL hd

theorem construct_refined_constrained (pol : RefPolicy) (dinc : ℕ) (s : Space)
    (hact : (s.elems.any fun e => e.active) = true) :
    numDirichletConstrained (construct_refined_space pol dinc s) =
      numDirichletConstrained s := by
  unfold numDirichletConstrained
  rw [construct_refined_space_any pol dinc s hact, hact]
  simp [construct_refined_space]

/-!
## Lemmas about the Space model: the vector/solution round trip
-/

theorem getD_set_self (l : List ℚ) (i : ℕ) (a : ℚ) (h : i < l.length) :
    (l.set i a).getD i 0 = a := by
  simp [List.getD_eq_getD_get?, List.get?_eq_getElem?, List.getElem?_set_self h]

theorem getD_set_ne (l : List ℚ) (i j : ℕ) (a : ℚ) (h : i ≠ j) :
    (l.set i a).getD j 0 = l.getD j 0 := by
  simp [List.getD_eq_getD_get?, List.get?_eq_getElem?, List.getElem?_set_ne h]

theorem scatterPairs_nil (vec : List ℚ) : scatterPairs vec [] = vec := rfl

theorem scatterPairs_cons_neg (vec : List ℚ) (d : ℤ) (c : ℚ) (rest : List (ℤ × ℚ))
    (h : ¬ 0 ≤ d) : scatterPairs vec ((d, c) :: rest) = scatterPairs vec rest := by
  simp [scatterPairs, h]

theorem scatterPairs_cons_pos (vec : List ℚ) (d : ℤ) (c : ℚ) (rest : List (ℤ × ℚ))
    (h : 0 ≤ d) :
    scatterPairs vec ((d, c) :: rest) = scatterPairs (vec.set d.toNat c) rest := by
  simp [scatterPairs, h]

theorem scatterPairs_length (pairs : List (ℤ × ℚ)) (vec : List ℚ) :
    (scatterPairs vec pairs).length = vec.length := by
  induction pairs generalizing vec with
  | nil => rfl
  | cons dc rest ih =>
    rcases dc with ⟨d, c⟩
    by_cases h : 0 ≤ d
    · rw [scatterPairs_cons_pos vec d c rest h, ih]
      simp
    · rw [scatterPairs_cons_neg vec d c rest h, ih]

theorem scatter_numberMask (mask : List Bool) (k : ℕ) (v cs vec : List ℚ)
    (hcs : cs.length = mask.length)
    (hlen : (numberMask k mask).2 ≤ vec.length) (j : ℕ) :
    (scatterPairs vec ((numberMask k mask).1.zip
        (List.zipWith (fun d c => if 0 ≤ d then v.getD d.toNat 0 else c)
          (numberMask k mask).1 cs))).getD j 0 =
      if k ≤ j ∧ j < (numberMask k mask).2 then v.getD j 0 else vec.getD j 0 := by
  induction mask generalizing k cs vec with
  | nil =>
    rw [numberMask_nil]
    simp only [List.zipWith_nil_left, List.zip_nil_left, scatterPairs_nil]
    have : ¬ (k ≤ j ∧ j < k) := by omega
    rw [if_neg this]
  | cons b rest ih =>
    cases cs with
    | nil => simp at hcs
    | cons c cs' =>
      have hcs' : cs'.length = rest.length := by simpa using hcs
      cases b
      · -- free slot, dof index k
        rw [numberMask_false] at hlen ⊢
        have hk1 : k + 1 ≤ (numberMask (k + 1) rest).2 := by
          rw [numberMask_snd]; omega
        have hkv : k < vec.length := by omega
        simp only [List.zipWith_cons_cons, List.zip_cons_cons]
        rw [show ((if (0 : ℤ) ≤ (k : ℤ) then v.getD (k : ℤ).toNat 0 else c) : ℚ) =
            v.getD k 0 by simp]
        rw [scatterPairs_cons_pos _ _ _ _ (by positivity)]
        rw [show ((k : ℤ)).toNat = k from Int.toNat_natCast k]
        rw [ih (k + 1) cs' (vec.set k (v.getD k 0)) hcs' (by simpa using hlen)]
        by_cases h1 : k + 1 ≤ j ∧ j < (numberMask (k + 1) rest).2
        · rw [if_pos h1, if_pos (by omega)]
        · rw [if_neg h1]
          by_cases h2 : j = k
          · subst h2
            rw [if_pos (by omega)]
            exact getD_set_self vec j (v.getD j 0) hkv
          · rw [if_neg (by omega)]
            exact getD_set_ne vec k j (v.getD k 0) fun hh => h2 hh.symm
      · -- constrained slot, dof index -1
        rw [numberMask_true] at hlen ⊢
        simp only [List.zipWith_cons_cons, List.zip_cons_cons]
        rw [show ((if (0 : ℤ) ≤ (-1 : ℤ) then v.getD (-1 : ℤ).toNat 0 else c) : ℚ) = c
          by norm_num]
        rw [scatterPairs_cons_neg _ _ _ _ (by norm_num)]
        exact ih k cs' vec hcs' hlen

theorem updElem_active (v : List ℚ) (e : Element) : (updElem v e).active = e.active := by
  unfold updElem
  cases ha : e.active <;> simp [ha]

theorem updElem_p (v : List ℚ) (e : Element) : (updElem v e).p = e.p := by
  unfold updElem
  cases ha : e.active <;> simp [ha]

theorem updElem_dof (v : List ℚ) (e : Element) : (updElem v e).dof = e.dof := by
  unfold updElem
  cases ha : e.active <;> simp [ha]

theorem any_map_updElem (v : List ℚ) (es : List Element) :
    ((es.map (updElem v)).any fun x => x.active) = es.any fun x => x.active := by
  induction es with
  | nil => rfl
  | cons e rest ih => simp [updElem_active, ih]

theorem foldl_scatterElem_length (l : List Element) (vec : List ℚ) :
    (l.foldl scatterElem vec).length = vec.length := by
  induction l generalizing vec with
  | nil => rfl
  | cons e rest ih =>
    simp only [List.foldl_cons]
    rw [ih]
    exact scatterPairs_length _ _

theorem assignGo_dof_length (bcs : List (BCKind × BCKind)) (fp : Bool) (k : ℕ)
    (es : List Element) (hassign : (assignGo bcs fp k es).1 = es)
    (hp : ∀ e ∈ es, e.active = true → 1 ≤ e.p) :
    ∀ e ∈ es, e.active = true → e.dof.length = bcs.length * (e.p + 1) := by
  induction es generalizing fp k with
  | nil => intro e he; simp at he
  | cons e rest ih =>
    intro e' he' ha'
    cases ha : e.active
    · rw [assignGo_cons_inactive bcs fp k e rest ha] at hassign
      have htail : (assignGo bcs fp k rest).1 = rest := (List.cons.injEq _ _ _ _ ▸ hassign).2
      rcases List.mem_cons.mp he' with rfl | hmem
      · rw [ha'] at ha; cases ha
      · exact ih fp k htail (fun x hx => hp x (List.mem_cons_of_mem _ hx)) e' hmem ha'
    · rw [assignGo_cons_active bcs fp k e rest ha] at hassign
      have hhead := (List.cons.injEq _ _ _ _ ▸ hassign).1
      have htail := (List.cons.injEq _ _ _ _ ▸ hassign).2
      rcases List.mem_cons.mp he' with rfl | hmem
      · have hdof : e'.dof =
            (numberMask k (elemMask bcs fp (!rest.any fun x => x.active) e'.p)).1 :=
          (congrArg Element.dof hhead).symm
        rw [hdof, numberMask_fst_length,
          elemMask_length bcs fp _ e'.p (hp e' (List.mem_cons_self _ _) ha')]
      · exact ih false _ htail (fun x hx => hp x (List.mem_cons_of_mem _ hx)) e' hmem ha'

theorem scatter_walk (bcs : List (BCKind × BCKind)) (es : List Element) (fp : Bool)
    (k : ℕ) (v vec : List ℚ)
    (hassign : (assignGo bcs fp k es).1 = es)
    (hcs : ∀ e ∈ es, e.active = true → e.coeffs.length = e.dof.length)
    (hlen : (assignGo bcs fp k es).2 ≤ vec.length) (j : ℕ) :
    (((es.map (updElem v)).filter fun e => e.active).foldl scatterElem vec).getD j 0 =
      if k ≤ j ∧ j < (assignGo bcs fp k es).2 then v.getD j 0 else vec.getD j 0 := by
  induction es generalizing fp k vec with
  | nil =>
    rw [assignGo_nil]
    simp only [List.map_nil, List.filter_nil, List.foldl_nil]
    have : ¬ (k ≤ j ∧ j < k) := by omega
    rw [if_neg this]
  | cons e rest ih =>
    cases ha : e.active
    · rw [assignGo_cons_inactive bcs fp k e rest ha] at hassign hlen ⊢
      have htail : (assignGo bcs fp k rest).1 = rest := (List.cons.injEq _ _ _ _ ▸ hassign).2
      have hfe : (updElem v e).active = false := by rw [updElem_active, ha]
      have hneg : ¬((updElem v e).active = true) := by simp [hfe]
      simp only [List.map_cons, List.filter_cons_of_neg hneg]
      exact ih fp k vec htail (fun x hx hxa => hcs x (List.mem_cons_of_mem _ hx) hxa) hlen
    · rw [assignGo_cons_active bcs fp k e rest ha] at hassign hlen ⊢
      have hhead := (List.cons.injEq _ _ _ _ ▸ hassign).1
      have htail := (List.cons.injEq _ _ _ _ ▸ hassign).2
      have hdof : e.dof =
          (numberMask k (elemMask bcs fp (!rest.any fun x => x.active) e.p)).1 :=
        (congrArg Element.dof hhead).symm
      have hfe : (updElem v e).active = true := by rw [updElem_active, ha]
      simp only [List.map_cons, List.filter_cons_of_pos hfe]
      simp only [List.foldl_cons]
      have hsnd1 : (numberMask k (elemMask bcs fp (!rest.any fun x => x.active) e.p)).2 =
          k + (elemMask bcs fp (!rest.any fun x => x.active) e.p).countP (fun b => !b) :=
        numberMask_snd _ _
      have hsnd2 := assignGo_snd bcs false
        (numberMask k (elemMask bcs fp (!rest.any fun x => x.active) e.p)).2 rest
      -- the scatter of the head element
      have hupd : scatterElem vec (updElem v e) =
          scatterPairs vec ((numberMask k
              (elemMask bcs fp (!rest.any fun x => x.active) e.p)).1.zip
            (List.zipWith (fun d c => if 0 ≤ d then v.getD d.toNat 0 else c)
              (numberMask k (elemMask bcs fp (!rest.any fun x => x.active) e.p)).1
              e.coeffs)) := by
        unfold scatterElem updElem
        rw [if_pos ha, ← hdof]
      have hclen : e.coeffs.length =
          (elemMask bcs fp (!rest.any fun x => x.active) e.p).length := by
        rw [hcs e (List.mem_cons_self _ _) ha, hdof, numberMask_fst_length]
      have hA := scatter_numberMask (elemMask bcs fp (!rest.any fun x => x.active) e.p)
        k v e.coeffs vec hclen (by omega)
      have hlenvec1 : ((scatterElem vec (updElem v e))).length = vec.length := by
        rw [hupd]; exact scatterPairs_length _ _
      have hB := ih false _ (scatterElem vec (updElem v e)) htail
        (fun x hx hxa => hcs x (List.mem_cons_of_mem _ hx) hxa) (by omega)
      rw [hB]
      by_cases h1 : (numberMask k (elemMask bcs fp (!rest.any fun x => x.active) e.p)).2 ≤ j ∧
          j < (assignGo bcs false
            (numberMask k (elemMask bcs fp (!rest.any fun x => x.active) e.p)).2 rest).2
      · rw [if_pos h1, if_pos (by omega)]
      · rw [if_neg h1, hupd, hA j]
        by_cases h2 : k ≤ j ∧
            j < (numberMask k (elemMask bcs fp (!rest.any fun x => x.active) e.p)).2
        · rw [if_pos h2, if_pos (by omega)]
        · rw [if_neg h2, if_neg (by omega)]

theorem assignGo_snd_map_updElem (bcs : List (BCKind × BCKind)) (v : List ℚ)
    (fp : Bool) (k : ℕ) (es : List Element) :
    (assignGo bcs fp k (es.map (updElem v))).2 = (assignGo bcs fp k es).2 := by
  induction es generalizing fp k with
  | nil => rfl
  | cons e rest ih =>
    cases ha : e.active
    · have hfe : (updElem v e).active = false := by rw [updElem_active, ha]
      rw [List.map_cons, assignGo_cons_inactive bcs fp k _ _ hfe,
        assignGo_cons_inactive bcs fp k e rest ha]
      exact ih fp k
    · have hfe : (updElem v e).active = true := by rw [updElem_active, ha]
      rw [List.map_cons, assignGo_cons_active bcs fp k _ _ hfe,
        assignGo_cons_active bcs fp k e rest ha]
      dsimp only
      rw [any_map_updElem, updElem_p]
      exact ih false _

theorem get_num_dofs_vector_to_solution (v : List ℚ) (s : Space) :
    get_num_dofs (vector_to_solution v s) = get_num_dofs s := by
  unfold get_num_dofs assign_dofs vector_to_solution
  exact assignGo_snd_map_updElem s.bcs v true 0 s.elems

/-!
## Lemmas about the error estimator
-/

theorem elemErrSq_zero (norm : ℕ) (uc duc ur dur : ℚ → ℚ) (pts : List (ℚ × ℚ))
    (hu : ∀ x, uc x = ur x) (hdu : ∀ x, duc x = dur x) :
    elemErrSq norm uc duc ur dur pts = 0 := by
  unfold elemErrSq
  apply List.sum_eq_zero
  intro x hx
  simp only [List.mem_map] at hx
  obtain ⟨xw, _, rfl⟩ := hx
  rw [hu xw.1, hdu xw.1]
  simp

/-!
## Lemmas about the PETSc sparse entry store
-/

theorem matSetValueAdd_entry (es : List ((ℕ × ℕ) × ℚ)) (m n : ℕ) (v : ℚ) :
    matEntry (matSetValueAdd es m n v) m n = matEntry es m n + v := by
  induction es with
  | nil => simp [matSetValueAdd, matEntry]
  | cons e rest ih =>
    by_cases h : e.1 = (m, n)
    · simp [matSetValueAdd, matEntry, h]
    · simp [matSetValueAdd, matEntry, h, ih]

theorem matSetValueAdd_frame (es : List ((ℕ × ℕ) × ℚ)) (m n : ℕ) (v : ℚ) (i j : ℕ)
    (hij : ¬(i = m ∧ j = n)) :
    matEntry (matSetValueAdd es m n v) i j = matEntry es i j := by
  have hmn : ¬(m = i ∧ n = j) := fun hh => hij ⟨hh.1.symm, hh.2.symm⟩
  induction es with
  | nil => simp [matSetValueAdd, matEntry, hmn]
  | cons e rest ih =>
    by_cases h : e.1 = (m, n)
    · simp [matSetValueAdd, matEntry, h, hmn]
    · by_cases he : e.1 = (i, j)
      · simp [matSetValueAdd, matEntry, h, he, hij, hmn]
      · simp [matSetValueAdd, matEntry, h, he, ih, hij, hmn]

/-!
## The claims
-/

/-- C2: for every Newton run of `main.cpp` (coarse or reference), the iteration exits
as converged only when the squared l2 norm of the assembled residual is strictly
below the configured tolerance squared AND at least one full iteration
(assemble, linear solve, update) has already completed; in particular the very first
residual evaluation (at `it = 1`, zero completed updates) never triggers
convergence. -/
theorem claim_C2_converged_requires_full_iteration (cfg : NewtonConfig)
    (ora : NewtonOracle) (fuel : ℕ) (v : List ℚ) (sf : NewtonState) (rnsq : ℚ)
    (h : newtonRun cfg ora fuel (newtonInit v) = .converged sf rnsq) :
    rnsq < cfg.tol * cfg.tol ∧ 1 ≤ sf.updates ∧ 2 ≤ sf.it ∧
      rnsq = sumSq (ora.assemble sf.space) := by
  have hrun := newtonRun_converged_inv cfg ora fuel (newtonInit v) sf rnsq rfl h
  exact ⟨hrun.1, hrun.2.1, hrun.2.2.1, hrun.2.2.2.2⟩

/-- Witness for C2: the zero-residual oracle converges at `it = 2` after exactly one
full update, and the theorem applies at this concrete run. -/
theorem claim_C2_witness :
    (0 : ℚ) < 1 * 1 ∧ 1 ≤ 1 ∧ 2 ≤ 2 ∧
      (0 : ℚ) = sumSq (newtonOracleW.assemble [0]) :=
  claim_C2_converged_requires_full_iteration ⟨1, 150⟩ newtonOracleW 5 [0]
    { it := 2, updates := 1, coeffs := [0], space := [0] } 0
    (by norm_num [newtonRun, newtonStepFn, newtonOracleW, newtonInit, sumSq])

/-- C3 counterexample: with constant residual 2, tolerance 1 and a maximum of 1
iteration, the embedded run fails with the divergence error in a state whose Space
coefficients are still [0] while the updated coefficient vector is [1] — the
write-back into the Space's Elements has NOT happened when the divergence check
fires, so on divergence failure the Space's Elements do not hold the last updated
coefficients, contrary to the claim. -/
theorem claim_C3_counterexample :
    newtonRun ⟨1, 1⟩ newtonOracleDiv 5 (newtonInit [0]) =
      .diverged { it := 1, updates := 0, coeffs := [1], space := [0] } ∧
      ¬ (([0] : List ℚ) = [1]) := by
  refine ⟨?_, by norm_num⟩
  norm_num [newtonRun, newtonStepFn, newtonOracleDiv, newtonInit, sumSq]

/-- C3 (amended): in the Update step of `main.cpp` the order is: add the correction
to the coefficient vector; THEN fail fatally with the divergence error if the
iteration counter has reached the configured maximum — before the write-back into
the Space's Elements and before the counter increment; only otherwise are the
updated coefficients copied into the Space and the counter incremented.  So on
divergence failure the coefficient vector holds the last updated coefficients while
the Space's Elements hold those of the previous write-back. -/
theorem claim_C3_amended_update_order (cfg : NewtonConfig) (ora : NewtonOracle)
    (fuel : ℕ) (s0 sf : NewtonState)
    (h : newtonRun cfg ora fuel s0 = .diverged sf) :
    ∃ s delta,
      newtonStepFn cfg ora s = .done (.diverged sf) ∧
      ora.solve s.space ((ora.assemble s.space).map fun x => -x) = some delta ∧
      sf.coeffs = List.zipWith (· + ·) s.coeffs delta ∧
      sf.space = s.space ∧ sf.it = s.it ∧ sf.updates = s.updates ∧
      cfg.maxIter ≤ s.it := by
  obtain ⟨s, hs⟩ := newtonRun_diverged_origin cfg ora fuel s0 sf h
  obtain ⟨delta, h1, h2, h3, h4, h5, h6⟩ := newtonStepFn_diverged cfg ora s sf hs
  exact ⟨s, delta, hs, h1, h2, h3, h4, h5, h6⟩

/-- Witness for the amended C3 at the concrete diverging run. -/
theorem claim_C3_amended_witness :
    ∃ s delta,
      newtonStepFn ⟨1, 1⟩ newtonOracleDiv s =
        .done (.diverged { it := 1, updates := 0, coeffs := [1], space := [0] }) ∧
      newtonOracleDiv.solve s.space
          ((newtonOracleDiv.assemble s.space).map fun x => -x) = some delta ∧
      ([1] : List ℚ) = List.zipWith (· + ·) s.coeffs delta ∧
      ([0] : List ℚ) = s.space ∧ 1 = s.it ∧ 0 = s.updates ∧ 1 ≤ s.it :=
  claim_C3_amended_update_order ⟨1, 1⟩ newtonOracleDiv 5 (newtonInit [0])
    { it := 1, updates := 0, coeffs := [1], space := [0] }
    (by norm_num [newtonRun, newtonStepFn, newtonOracleDiv, newtonInit, sumSq])

/-- C4 (code bug): in `main.cpp` a solver failure is fatal with no retry, but
`PetscLinearMatrixSolver::solve` can never report one — even when `KSPSolve` returns
a nonzero error code (non-convergence or singular system) the commented-out FIXME
check means the solution vector is extracted and handed to the caller as a success;
the embedded solve has no failure outcome at all. -/
theorem claim_C4_petsc_solve_never_signals_failure :
    petscLinearSolve (fun _ => { ec := 1, x := [0] }) [5] = SolveSignal.ok [0] ∧
      ∀ (ksp : List ℚ → KSPOutcome) (rhs : List ℚ),
        petscLinearSolve ksp rhs ≠ SolveSignal.failure := by
  refine ⟨rfl, fun ksp rhs h => ?_⟩
  exact SolveSignal.noConfusion h

/-- C5: for every valid coarse Space and every refinement policy with a positive
degree increment, `construct_refined_space` yields a reference Space with strictly
more degrees of freedom than the coarse Space (which, being passed by value, is left
unmodified). -/
theorem claim_C5_refined_space_strictly_more_dofs (pol : RefPolicy) (dinc : ℕ)
    (s : Space) (hs : SpaceValid s) (hd : 1 ≤ dinc) :
    get_num_dofs s < get_num_dofs (construct_refined_space pol dinc s) := by
  obtain ⟨hL, hact, hep⟩ := hs
  have hp : ∀ e ∈ s.elems, e.active = true → 1 ≤ e.p := fun e he ha => (hep e he ha).1
  have h1 := num_dofs_add s hp
  have h2 := num_dofs_add (construct_refined_space pol dinc s)
    (construct_refined_space_p pol dinc s hp)
  have h3 := construct_refined_total pol dinc s hL hd hact
  have h4 := construct_refined_constrained pol dinc s hact
  unfold get_num_dofs
  omega

/-- Witness for C5: hp-refining the worked two-element coarse space strictly
increases the dof count. -/
theorem claim_C5_witness :
    get_num_dofs exSpace < get_num_dofs (construct_refined_space RefPolicy.hp 1 exSpace) :=
  claim_C5_refined_space_strictly_more_dofs RefPolicy.hp 1 exSpace
    ⟨by decide, by decide, by decide⟩ (by decide)

/-- C6: for every valid boundary configuration, `assign_dofs` returns a dof count
equal to the total number of local coefficients across active Elements minus the
number of Dirichlet-constrained coefficients, and calling it again on its own output
(no structural or boundary change) returns the same count and assigns the same
indices. -/
theorem claim_C6_assign_dofs_count_and_idempotent (s : Space)
    (hp : ∀ e ∈ s.elems, e.active = true → 1 ≤ e.p) :
    (assign_dofs s).2 = totalLocalCoeffs s - numDirichletConstrained s ∧
      assign_dofs (assign_dofs s).1 = assign_dofs s := by
  refine ⟨?_, assign_dofs_idem s⟩
  have h := num_dofs_add s hp
  omega

/-- Witness for C6 on the worked two-element space: 2 dofs = 4 local coefficients
minus 2 Dirichlet-constrained ones, and reassignment is stable. -/
theorem claim_C6_witness :
    (assign_dofs exSpace).2 = totalLocalCoeffs exSpace - numDirichletConstrained exSpace ∧
      assign_dofs (assign_dofs exSpace).1 = assign_dofs exSpace :=
  claim_C6_assign_dofs_count_and_idempotent exSpace (by decide)

/-- C7: for every valid Space whose dofs are as `assign_dofs` assigns them and every
coefficient vector of length equal to the Space's dof count, `vector_to_solution`
followed by `solution_to_vector` returns exactly the original coefficient vector. -/
theorem claim_C7_round_trip (s : Space) (v : List ℚ) (hs : SpaceValid s)
    (ha : Assigned s) (hv : v.length = get_num_dofs s) :
    solution_to_vector (vector_to_solution v s) = v := by
  obtain ⟨hL, hact, hep⟩ := hs
  have hp : ∀ e ∈ s.elems, e.active = true → 1 ≤ e.p := fun e he hae => (hep e he hae).1
  have hassign : (assignGo s.bcs true 0 s.elems).1 = s.elems := by
    have h := congrArg Space.elems ha
    simpa [assign_dofs] using h
  have hdofl := assignGo_dof_length s.bcs true 0 s.elems hassign hp
  have hcs : ∀ e ∈ s.elems, e.active = true → e.coeffs.length = e.dof.length := by
    intro e he hae
    rw [(hep e he hae).2, hdofl e he hae]
  have hsnd : (assignGo s.bcs true 0 s.elems).2 = get_num_dofs s := rfl
  have hwalk := scatter_walk s.bcs s.elems true 0 v
    (List.replicate (get_num_dofs s) 0) hassign hcs (by rw [hsnd]; simp)
  have hnum : get_num_dofs (vector_to_solution v s) = get_num_dofs s :=
    get_num_dofs_vector_to_solution v s
  unfold solution_to_vector vector_to_solution
  dsimp only
  rw [show get_num_dofs { s with elems := s.elems.map (updElem v) } = get_num_dofs s
    from hnum]
  refine List.ext_getElem ?_ ?_
  · rw [foldl_scatterElem_length, List.length_replicate, hv]
  · intro i h1 h2
    have hi : i < get_num_dofs s := by rw [← hv]; exact h2
    have hw := hwalk i
    rw [hsnd, if_pos ⟨Nat.zero_le i, hi⟩] at hw
    have hlhs : (((s.elems.map (updElem v)).filter fun e => e.active).foldl scatterElem
        (List.replicate (get_num_dofs s) 0)).getD i 0 = v.getD i 0 := hw
    rw [← List.getD_eq_getElem _ 0 h1, ← List.getD_eq_getElem _ 0 h2]
    exact hlhs

/-- Witness for C7: the round trip on the worked assigned space reproduces the
vector [3, 7]. -/
theorem claim_C7_witness :
    solution_to_vector (vector_to_solution [3, 7] exSpaceA) = [3, 7] :=
  claim_C7_round_trip exSpaceA [3, 7] ⟨by decide, by decide, by decide⟩
    (show (assign_dofs exSpaceA).1 = exSpaceA by decide) (by decide)

/-- C8: when the coarse and reference Spaces hold identical solutions (same values
and derivatives at every point), `calc_err_est` stores 0 in the output error array
for every active coarse Element and returns 0 as the global relative error. -/
theorem claim_C8_identical_solutions_zero_error (norm : ℕ) (uc duc ur dur : ℚ → ℚ)
    (elemPts : List (List (ℚ × ℚ)))
    (hu : ∀ x, uc x = ur x) (hdu : ∀ x, duc x = dur x) :
    (∀ err ∈ (calc_err_est norm uc duc ur dur elemPts).1, err = 0) ∧
      (calc_err_est norm uc duc ur dur elemPts).2 = 0 := by
  have hz : ∀ pts, elemErrSq norm uc duc ur dur pts = 0 :=
    fun pts => elemErrSq_zero norm uc duc ur dur pts hu hdu
  constructor
  · intro err herr
    unfold calc_err_est at herr
    simp only [List.mem_map] at herr
    obtain ⟨pts, _, rfl⟩ := herr
    rw [hz]
    simp
  · unfold calc_err_est
    dsimp only
    have hsum : (elemPts.map fun pts =>
        ((elemErrSq norm uc duc ur dur pts : ℚ) : ℝ)).sum = 0 := by
      apply List.sum_eq_zero
      intro x hx
      simp only [List.mem_map] at hx
      obtain ⟨pts, _, rfl⟩ := hx
      rw [hz]
      norm_num
    rw [hsum, Real.sqrt_zero, zero_div]

/-- Witness for C8 with concretely identical solutions and one quadrature point. -/
theorem claim_C8_witness :
    (∀ err ∈ (calc_err_est 1 (fun x => x) (fun _ => 1) (fun x => x) (fun _ => 1)
        [[(0, 2)]]).1, err = 0) ∧
      (calc_err_est 1 (fun x => x) (fun _ => 1) (fun x => x) (fun _ => 1)
        [[(0, 2)]]).2 = 0 :=
  claim_C8_identical_solutions_zero_error 1 (fun x => x) (fun _ => 1) (fun x => x)
    (fun _ => 1) [[(0, 2)]] (fun _ => rfl) (fun _ => rfl)

/-- C9: `PetscMatrix::add` with value 0 leaves the sparse entry store completely
unchanged (the zero value is skipped, no entry inserted or modified), while a
nonzero value v is accumulated into entry (m, n) and every other entry is left
unchanged. -/
theorem claim_C9_add_skips_zero_accumulates_nonzero (es : List ((ℕ × ℕ) × ℚ))
    (m n : ℕ) (v : ℚ) :
    petscMatrixAdd es m n 0 = es ∧
      (v ≠ 0 →
        matEntry (petscMatrixAdd es m n v) m n = matEntry es m n + v ∧
          ∀ i j : ℕ, ¬(i = m ∧ j = n) →
            matEntry (petscMatrixAdd es m n v) i j = matEntry es i j) := by
  constructor
  · simp [petscMatrixAdd]
  · intro hv
    rw [petscMatrixAdd, if_pos hv]
    exact ⟨matSetValueAdd_entry es m n v,
      fun i j hij => matSetValueAdd_frame es m n v i j hij⟩

/-- Witness for C9 on a one-entry store: adding 0 at (0,0) changes nothing; adding 1
at (0,0) accumulates 2 + 1 and leaves entry (1,1) unchanged. -/
theorem claim_C9_witness :
    petscMatrixAdd [((0, 0), 2)] 0 0 0 = [((0, 0), 2)] ∧
      matEntry (petscMatrixAdd [((0, 0), 2)] 0 0 1) 0 0 =
        matEntry [((0, 0), 2)] 0 0 + 1 ∧
      matEntry (petscMatrixAdd [((0, 0), 2)] 0 0 1) 1 1 =
        matEntry [((0, 0), 2)] 1 1 := by
  obtain ⟨hzero, hrest⟩ := claim_C9_add_skips_zero_accumulates_nonzero
    [((0, 0), 2)] 0 0 (1 : ℚ)
  obtain ⟨hacc, hframe⟩ := hrest (by norm_num)
  exact ⟨hzero, hacc, hframe 1 1 (by omega)⟩

/-- C10 (code bug): the components produced by
`InitialSolutionHeatTransfer::derivatives` are NOT the partial derivatives of
`InitialSolutionHeatTransfer::value`: the partials of (x+10)(y+10)/100 at (0, 0) are
1/10 in each variable, while the code returns 1 — a factor of 10 off. -/
theorem claim_C10_derivatives_mismatch :
    deriv (fun t : ℝ => heatICValue t 0) 0 = 1 / 10 ∧
      deriv (fun t : ℝ => heatICValue 0 t) 0 = 1 / 10 ∧
      (heatICDerivatives (0 : ℝ) 0).1 = 1 ∧ (heatICDerivatives (0 : ℝ) 0).2 = 1 ∧
      (heatICDerivatives (0 : ℝ) 0).1 ≠ deriv (fun t : ℝ => heatICValue t 0) 0 ∧
      (heatICDerivatives (0 : ℝ) 0).2 ≠ deriv (fun t : ℝ => heatICValue 0 t) 0 := by
  have hx : HasDerivAt (fun t : ℝ => heatICValue t 0) (1 * ((0 : ℝ) + 10) / 100) 0 := by
    unfold heatICValue
    exact (((hasDerivAt_id (0 : ℝ)).add_const 10).mul_const ((0 : ℝ) + 10)).div_const 100
  have hy : HasDerivAt (fun t : ℝ => heatICValue 0 t) (((0 : ℝ) + 10) * 1 / 100) 0 := by
    unfold heatICValue
    have hbase : HasDerivAt (fun t : ℝ => t + 10) 1 (0 : ℝ) :=
      (hasDerivAt_id (0 : ℝ)).add_const 10
    have hmul : HasDerivAt (fun t : ℝ => ((0 : ℝ) + 10) * (t + 10)) (((0 : ℝ) + 10) * 1) 0 :=
      hbase.const_mul ((0 : ℝ) + 10)
    exact hmul.div_const 100
  have h1 : deriv (fun t : ℝ => heatICValue t 0) 0 = 1 * ((0 : ℝ) + 10) / 100 := hx.deriv
  have h2 : deriv (fun t : ℝ => heatICValue 0 t) 0 = ((0 : ℝ) + 10) * 1 / 100 := hy.deriv
  have h3 : deriv (fun t : ℝ => heatICValue t 0) 0 = 1 / 10 := by rw [h1]; norm_num
  have h4 : deriv (fun t : ℝ => heatICValue 0 t) 0 = 1 / 10 := by rw [h2]; norm_num
  have h5 : (heatICDerivatives (0 : ℝ) 0).1 = 1 := by
    unfold heatICDerivatives
    norm_num
  have h6 : (heatICDerivatives (0 : ℝ) 0).2 = 1 := by
    unfold heatICDerivatives
    norm_num
  refine ⟨h3, h4, h5, h6, ?_, ?_⟩
  · rw [h3, h5]; norm_num
  · rw [h4, h6]; norm_num

end Hermes
